import Mathlib

/-!
Verification development for the Pěskowčik episode reconciliation app
(`stream.app.peskowcik.py`).  The Python source is shallowly embedded:
dictionaries of catalog records become the `Entry` structure, the working
deduplication map becomes an insertion-ordered association list, and the
paging / scanning loops of `main` become structural recursions.  String
primitives (`.lower()`, `.strip()`, `in`, `.endswith`) are modelled on
`List Char`.
-/

namespace Peskowcik

/-! ### String primitives -/

/-- Model of Python `str.lower` restricted to the alphabet this app uses:
ASCII letters plus the Sorbian/German diacritics occurring in the source's
keyword lists and data. Other characters are unchanged. -/
def lowerChar (c : Char) : Char :=
  if 'A' ≤ c ∧ c ≤ 'Z' then Char.ofNat (c.toNat + 32)
  else match c with
    | 'Ě' => 'ě' | 'Š' => 'š' | 'Č' => 'č' | 'Ž' => 'ž' | 'Ć' => 'ć'
    | 'Ł' => 'ł' | 'Ń' => 'ń' | 'Á' => 'á' | 'Ó' => 'ó' | 'Ś' => 'ś'
    | 'Ź' => 'ź' | 'Ż' => 'ż' | 'Ä' => 'ä' | 'Ö' => 'ö' | 'Ü' => 'ü'
    | _ => c

/-- Python `str.lower` lifted to strings. -/
def pyLower (s : String) : String := ⟨s.data.map lowerChar⟩

/-- Characters stripped by Python `str.strip()` (the ASCII whitespace set). -/
def isPySpace (c : Char) : Bool :=
  c = ' ' || c = '\t' || c = '\n' || c = '\r' || c = '\x0b' || c = '\x0c'

/-- Drop leading whitespace. -/
def dropLeading (l : List Char) : List Char := l.dropWhile isPySpace

/-- Drop trailing whitespace. -/
def dropTrailing (l : List Char) : List Char :=
  (l.reverse.dropWhile isPySpace).reverse

/-- Python `str.strip()` on character lists. -/
def pyStripL (l : List Char) : List Char := dropTrailing (dropLeading l)

/-- Python `str.strip()`. -/
def pyStrip (s : String) : String := ⟨pyStripL s.data⟩

/-- Does `n` occur at the start of `h`?  (Python `str.startswith`.) -/
def leadsWith : List Char → List Char → Bool
  | [], _ => true
  | _ :: _, [] => false
  | a :: as, b :: bs => a = b && leadsWith as bs

/-- Does `n` occur somewhere inside `h`?  (Python `n in h`.) -/
def listContains (n : List Char) : List Char → Bool
  | [] => n.isEmpty
  | c :: rest => leadsWith n (c :: rest) || listContains n rest

/-- Python `sub in hay` on strings. -/
def strContains (hay sub : String) : Bool := listContains sub.data hay.data

/-- Python `hay.endswith sub`. -/
def strEndsWith (hay sub : String) : Bool :=
  leadsWith sub.data.reverse hay.data.reverse

/-- Python `hay.startswith sub`. -/
def strStartsWith (hay sub : String) : Bool := leadsWith sub.data hay.data

/-! ### Day-granularity date formatting (`strftime "%Y-%m-%d"` on a UTC
timestamp).  Uses the standard civil-from-days conversion. -/

def digitChar (n : Nat) : Char := Char.ofNat (48 + n % 10)

def pad2 (n : Nat) : String := ⟨[digitChar (n / 10), digitChar n]⟩

def yearStr (y : Nat) : String :=
  ⟨[digitChar (y / 1000), digitChar (y / 100), digitChar (y / 10), digitChar y]⟩

/-- Gregorian date of day number `z` (days since 1970-01-01). -/
def civilFromDays (z : Int) : Int × Nat × Nat :=
  let z2 := z + 719468
  let era := Int.fdiv z2 146097
  let doe := (z2 - era * 146097).toNat
  let yoe := (doe - doe / 1460 + doe / 36524 - doe / 146096) / 365
  let doy := doe - (365 * yoe + yoe / 4 - yoe / 100)
  let mp := (5 * doy + 2) / 153
  let d := doy - (153 * mp + 2) / 5 + 1
  let m := if mp < 10 then mp + 3 else mp - 9
  ((yoe : Int) + era * 400 + (if m ≤ 2 then 1 else 0), m, d)

/-- Models `datetime.fromtimestamp(ts, tz=utc).strftime("%Y-%m-%d")`. -/
def dateStrOfTs (ts : Int) : String :=
  let c := civilFromDays (Int.fdiv ts 86400)
  yearStr c.1.toNat ++ "-" ++ pad2 c.2.1 ++ "-" ++ pad2 c.2.2

/-! ### Catalog records -/

/-- A MediathekViewWeb result dict.  `none` models an absent dict key (the
Python code reads every field through `.get` with a default). -/
structure Entry where
  channel : Option String := none
  topic : Option String := none
  title : Option String := none
  description : Option String := none
  timestamp : Option Int := none
  url_website : Option String := none
  url_video : Option String := none
  deriving DecidableEq, Repr

/-- Models `entry.get("timestamp", 0)`. -/
def tsOf (e : Entry) : Int := e.timestamp.getD 0

/-- Models `entry.get("title") or ""`. -/
def titleOf (e : Entry) : String := e.title.getD ""

/-- Models `entry.get("description") or ""`. -/
def descOf (e : Entry) : String := e.description.getD ""

/-! ### Normalizer: `extract_base64_id` -/

/-- Models `url.rstrip("/")`. -/
def rstripSlash (l : List Char) : List Char := (l.reverse.dropWhile (· = '/')).reverse

/-- Python `s.split("/")`. -/
def splitOnSlash : List Char → List (List Char)
  | [] => [[]]
  | c :: rest =>
    match splitOnSlash rest with
    | [] => if c = '/' then [[], []] else [[c]]
    | seg :: segs =>
      if c = '/' then [] :: seg :: segs else (c :: seg) :: segs

/-- Models `extract_base64_id`: the last path segment of the URL, accepted only when
it starts with the ARD CRID marker `"Y3Jp"`. -/
def extract_base64_id (url : String) : Option String :=
  if url = "" then none
  else
    let candidate : String := ⟨(splitOnSlash (rstripSlash url.data)).getLastD []⟩
    if strStartsWith candidate "Y3Jp" then some candidate else none

/-! ### Classifier: `is_sorbian_episode` and `sorbian_score` -/

/-- The keyword list of `is_sorbian_episode`. -/
def sorbianKeywords : List String :=
  ["sorbisch", "peskowcik", "pěskowčik",
   "gestörte angelfreuden", "gestoerte angelfreuden",
   "suwa", "spewaca", "mróčele", "mrocele",
   "jablucina", "jabłucina", "liska", "sroka"]

/-- Models `is_sorbian_episode`: any keyword occurs in the lower-cased title or
description. -/
def is_sorbian_episode (e : Entry) : Bool :=
  let title := pyLower (titleOf e)
  let description := pyLower (descOf e)
  sorbianKeywords.any (fun kw => strContains title kw || strContains description kw)

/-- The strong-keyword condition of `sorbian_score` (weight 3). -/
def hasStrongKeyword (e : Entry) : Bool :=
  let title := pyLower (titleOf e)
  let description := pyLower (descOf e)
  (["sorbisch", "peskowcik", "pěskowčik"] : List String).any
    (fun kw => strContains title kw || strContains description kw)

/-- The character class of the diacritic regex in `sorbian_score`. -/
def sorbianDiacritics : List Char :=
  ['ě', 'š', 'č', 'ž', 'ć', 'ł', 'ń', 'á', 'ó', 'ś', 'ź', 'ż',
   'Ě', 'Š', 'Č', 'Ž', 'Ć', 'Ł', 'Ń', 'Á', 'Ó', 'Ś', 'Ź', 'Ż']

/-- The diacritic condition of `sorbian_score` (weight 2): some character of
the class occurs in the concatenation of lower-cased title and description. -/
def hasDiacritic (e : Entry) : Bool :=
  ((pyLower (titleOf e)).data ++ (pyLower (descOf e)).data).any
    (fun c => sorbianDiacritics.contains c)

/-- The URL condition of `sorbian_score` (weight 1): `"sorbisch"` occurs in a
lower-cased URL field. -/
def hasUrlHint (e : Entry) : Bool :=
  strContains (pyLower (e.url_website.getD "")) "sorbisch" ||
  strContains (pyLower (e.url_video.getD "")) "sorbisch"

/-- Models `sorbian_score`: sequential accumulation exactly as in the source. -/
def sorbian_score (e : Entry) : Int :=
  let score : Int := 0
  let score := if hasStrongKeyword e then score + 3 else score
  let score := if hasDiacritic e then score + 2 else score
  let score := if hasUrlHint e then score + 1 else score
  score

/-! ### Media Resolver: `_pick_best` inside `fetch_mdr_episode` -/

/-- Models `_pick_best`: the first candidate whose lower-cased form ends in `.mp4`,
otherwise the first candidate, otherwise `None`. -/
def pick_best : List String → Option String
  | [] => none
  | c :: cs =>
    match (c :: cs).find? (fun u => strEndsWith (pyLower u) ".mp4") with
    | some u => some u
    | none => some c

/-! ### The working map (`sorbian_map`): an insertion-ordered dict -/

abbrev DKey := String × String × String

abbrev SMap := List (DKey × Entry)

def lookupMap : SMap → DKey → Option Entry
  | [], _ => none
  | (k', v) :: rest, k => if k' = k then some v else lookupMap rest k

/-- Models `dict[key] = value`: replace in place, else append (insertion order). -/
def mapSet : SMap → DKey → Entry → SMap
  | [], k, v => [(k, v)]
  | (k', v') :: rest, k, v =>
    if k' = k then (k, v) :: rest else (k', v') :: mapSet rest k v

def valuesOf (m : SMap) : List Entry := m.map (·.2)

/-- The dedup key computed in `main` and in `_add_entry_to_map`: lower-cased
stripped title, lower-cased stripped description, and the day-granularity
date string (empty when the timestamp is 0 or absent). -/
def dedupKey (e : Entry) : DKey :=
  (pyLower (pyStrip (titleOf e)),
   pyLower (pyStrip (descOf e)),
   if tsOf e = 0 then "" else dateStrOfTs (tsOf e))

/-- The replace condition: no existing entry, or a strictly higher score. -/
def shouldReplace (m : SMap) (e : Entry) : Bool :=
  match lookupMap m (dedupKey e) with
  | none => true
  | some existing => decide (sorbian_score e > sorbian_score existing)

/-- Models `_add_entry_to_map` (also the inline insert-or-replace of the index
scan loop). -/
def add_entry_to_map (m : SMap) (e : Entry) : SMap :=
  if shouldReplace m e then mapSet m (dedupKey e) e else m

/-- Folding a whole record sequence through the insert-or-replace rule. -/
def mergeAll (entries : List Entry) : SMap := entries.foldl add_entry_to_map []

/-! ### Reconciler: the index-scan loop of `main` -/

def maxChecks : Nat := 200

def maxResults : Nat := 30

structure ScanState where
  map : SMap
  checked : Nat
  cutoffReached : Bool
  deriving DecidableEq, Repr

/-- One page scan (`for entry in results_page`), with the per-page bound,
the age-cutoff early exit, the Angelfreuden special case, the
insert-or-replace rule, and the result-cap break. -/
def scanGo (cutoffTs : Int) : List Entry → ScanState → ScanState
  | [], s => s
  | e :: rest, s =>
    if maxChecks ≤ s.checked then s
    else if tsOf e < cutoffTs then { s with cutoffReached := true }
    else if is_sorbian_episode e then
      let titleLower := pyLower (pyStrip (titleOf e))
      if (strContains titleLower "gestörte angelfreuden" ||
          strContains titleLower "gestoerte angelfreuden") &&
         !strContains titleLower "(sorbisch)" then
        scanGo cutoffTs rest { s with checked := s.checked + 1 }
      else if shouldReplace s.map e then
        let m' := mapSet s.map (dedupKey e) e
        if maxResults ≤ m'.length then { s with map := m' }
        else scanGo cutoffTs rest { s with map := m', checked := s.checked + 1 }
      else scanGo cutoffTs rest { s with checked := s.checked + 1 }
    else scanGo cutoffTs rest { s with checked := s.checked + 1 }

/-- The paging loop of `main`: the `while` result-cap guard, the empty-page
break, one page scan, then the cutoff / result-cap / short-page breaks. -/
def reconcilePages (cutoffTs : Int) : SMap → List (List Entry) → SMap
  | m, [] => m
  | m, p :: rest =>
    if maxResults ≤ m.length then m
    else if p.isEmpty then m
    else
      let s := scanGo cutoffTs p { map := m, checked := 0, cutoffReached := false }
      if s.cutoffReached || maxResults ≤ s.map.length then s.map
      else if s.checked < maxChecks then s.map
      else reconcilePages cutoffTs s.map rest

/-! ### Source adapter: `fetch_results` -/

/-- A JSON value, for the parsed response body. -/
inductive JValue where
  | null
  | bool (b : Bool)
  | num (n : Int)
  | str (s : String)
  | arr (xs : List JValue)
  | obj (fields : List (String × JValue))

/-- Python `dict.get(key, default)`. -/
def dictGet (fields : List (String × JValue)) (k : String) (default : JValue) : JValue :=
  match fields.find? (fun kv => kv.1 == k) with
  | some kv => kv.2
  | none => default

/-- What an HTTP call can come back as: a transport failure (network error,
timeout, or a non-2xx status raised by `raise_for_status`), or a response
whose body may (`some`) or may not (`none`) parse as JSON. -/
inductive ApiResponse where
  | transportFailure
  | success (body : Option JValue)

/-- Models `fetch_results`: both failure classes are caught and yield `[]`; a
parsed body is navigated via `data.get("result", {}).get("results", [])`,
which raises `AttributeError` (uncaught) when `data` or `data["result"]`
is not an object. -/
def fetch_results (r : ApiResponse) : Except String JValue :=
  match r with
  | .transportFailure => .ok (.arr [])
  | .success none => .ok (.arr [])
  | .success (some j) =>
    match j with
    | .obj fields =>
      match dictGet fields "result" (.obj []) with
      | .obj fields2 => .ok (dictGet fields2 "results" (.arr []))
      | _ => .error "AttributeError"
    | _ => .error "AttributeError"

/-! ### Presentation hand-off: display sort and `build_rss` -/

/-- Models `sorted(sorbian_entries, key=lambda e: e.get("timestamp", 0), reverse=True)`. -/
def displaySorted (l : List Entry) : List Entry :=
  l.mergeSort (fun a b => decide (tsOf b ≤ tsOf a))

/-- Models `xml.sax.saxutils.escape` on one character. -/
def escChar (c : Char) : List Char :=
  if c = '&' then "&amp;".data
  else if c = '<' then "&lt;".data
  else if c = '>' then "&gt;".data
  else [c]

def xmlEscapeL : List Char → List Char
  | [] => []
  | c :: rest => escChar c ++ xmlEscapeL rest

def xmlEscape (s : String) : String := ⟨xmlEscapeL s.data⟩

/-- One `<item>` of the RSS feed. -/
structure RssItem where
  title : String
  description : String
  link : String
  guid : String
  pubDateTs : Int
  enclosureUrl : String
  enclosureType : String
  deriving DecidableEq, Repr

/-- The fields of one feed item as assembled in `build_rss`. -/
def rssItemOf (e : Entry) : RssItem :=
  let link := xmlEscape (e.url_website.getD "")
  let enclosureUrl := xmlEscape (e.url_video.getD "")
  { title := xmlEscape (titleOf e)
    description := xmlEscape (descOf e)
    link := link
    guid := link
    pubDateTs := tsOf e
    enclosureUrl := enclosureUrl
    enclosureType :=
      if enclosureUrl = "" then ""
      else if strEndsWith (pyLower enclosureUrl) ".m3u8" then "application/x-mpegURL"
      else "video/mp4" }

/-- Models `build_rss` at the item level: one item per input record, in
input order. -/
def build_rss (results : List Entry) : List RssItem := results.map rssItemOf

/-! ### A specification-side predicate for substring occurrence -/

/-- Predicate: `n` occurs contiguously inside `h`. -/
def SubSeg (n h : List Char) : Prop := ∃ s t, h = s ++ n ++ t

/-! ### Concrete records used to instantiate the theorems -/

def crUrl : String := "https://www.ardmediathek.de/video/Y3JpZDovL3JiYl90ZXN0"

def recA : Entry := { title := some "Pěskowčik: Folge A", timestamp := some 1000, url_website := some crUrl }

def recB : Entry := { title := some "Pěskowčik: Folge B", timestamp := some 900, url_website := some crUrl }

def recLow : Entry := { title := some "x", description := some "sorbisch" }

def recHigh : Entry := { title := some "X", description := some "Sorbisch", url_website := some "https://x/sorbisch/a" }

def recOldT : Entry := { title := some "alt sorbisch", timestamp := some 100 }

def recNewT : Entry := { title := some "neu sorbisch", timestamp := some 200 }

def recFresh : Entry := { title := some "sorbisch a", timestamp := some 100 }

def recStale : Entry := { title := some "sorbisch alt", timestamp := some 5 }

def recLater : Entry := { title := some "sorbisch b", timestamp := some 50 }

def recAngel : Entry := { title := some "Fuchs und Elster: Gestörte Angelfreuden", timestamp := some 1000 }

def recAngelS : Entry := { title := some "Fuchs und Elster: Gestörte Angelfreuden (sorbisch)", timestamp := some 1000 }

def recEpoch : Entry := { title := some "Pěskowčik: Kalli", description := some "manuell" }

/-! ## Infrastructure lemmas -/

theorem lookup_mapSet_self (m : SMap) (k : DKey) (v : Entry) :
    lookupMap (mapSet m k v) k = some v := by
  induction m with
  | nil => simp [mapSet, lookupMap]
  | cons hd rest ih =>
    obtain ⟨k', v'⟩ := hd
    by_cases h : k' = k
    · simp [mapSet, h, lookupMap]
    · simp [mapSet, h, lookupMap, ih]

theorem lookup_mapSet_ne (m : SMap) (k k' : DKey) (v : Entry) (h : k' ≠ k) :
    lookupMap (mapSet m k v) k' = lookupMap m k' := by
  have hne : ¬ k = k' := fun h' => h h'.symm
  induction m with
  | nil => simp [mapSet, lookupMap, hne]
  | cons hd rest ih =>
    obtain ⟨k₀, v₀⟩ := hd
    by_cases h0 : k₀ = k
    · subst h0
      simp [mapSet, lookupMap, hne]
    · simp only [mapSet, if_neg h0, lookupMap]
      by_cases h1 : k₀ = k'
      · simp [h1]
      · simp [h1, ih]

theorem length_mapSet (m : SMap) (k : DKey) (v : Entry) :
    (mapSet m k v).length =
      if lookupMap m k = none then m.length + 1 else m.length := by
  induction m with
  | nil => simp [mapSet, lookupMap]
  | cons hd rest ih =>
    obtain ⟨k', v'⟩ := hd
    by_cases h : k' = k
    · simp [mapSet, h, lookupMap]
    · simp only [mapSet, if_neg h, lookupMap, List.length_cons, ih]
      split <;> rfl

theorem lookup_add_entry_ne (m : SMap) (e : Entry) (k : DKey)
    (h : dedupKey e ≠ k) :
    lookupMap (add_entry_to_map m e) k = lookupMap m k := by
  unfold add_entry_to_map
  split
  · exact lookup_mapSet_ne m (dedupKey e) k e (fun h' => h h'.symm)
  · rfl

theorem leadsWith_iff (n h : List Char) :
    leadsWith n h = true ↔ ∃ t, h = n ++ t := by
  induction n generalizing h with
  | nil => simp only [leadsWith, true_iff]; exact ⟨h, rfl⟩
  | cons a as ih =>
    cases h with
    | nil => simp [leadsWith]
    | cons b bs =>
      simp only [leadsWith, Bool.and_eq_true, decide_eq_true_eq, ih]
      constructor
      · rintro ⟨rfl, t, rfl⟩
        exact ⟨t, rfl⟩
      · rintro ⟨t, ht⟩
        injection ht with h1 h2
        exact ⟨h1.symm, t, h2⟩

theorem listContains_iff (n h : List Char) :
    listContains n h = true ↔ SubSeg n h := by
  induction h with
  | nil =>
    simp only [listContains, List.isEmpty_iff, SubSeg]
    constructor
    · rintro rfl
      exact ⟨[], [], rfl⟩
    · rintro ⟨s, t, hst⟩
      rcases List.append_eq_nil.mp hst.symm with ⟨h1, h2⟩
      rcases List.append_eq_nil.mp h1 with ⟨-, h3⟩
      exact h3
  | cons c rest ih =>
    simp only [listContains, Bool.or_eq_true, leadsWith_iff, ih, SubSeg]
    constructor
    · rintro (⟨t, ht⟩ | ⟨s, t, hst⟩)
      · exact ⟨[], t, by simpa using ht⟩
      · exact ⟨c :: s, t, by simp [hst]⟩
    · rintro ⟨s, t, hst⟩
      cases s with
      | nil => exact Or.inl ⟨t, by simpa using hst⟩
      | cons x xs =>
        injection hst with h1 h2
        exact Or.inr ⟨xs, t, h2⟩

theorem SubSeg.trans {a b c : List Char} (h1 : SubSeg a b) (h2 : SubSeg b c) :
    SubSeg a c := by
  obtain ⟨s, t, rfl⟩ := h1
  obtain ⟨s', t', rfl⟩ := h2
  exact ⟨s' ++ s, t ++ t', by simp⟩

theorem SubSeg.mapChar (f : Char → Char) {a b : List Char} (h : SubSeg a b) :
    SubSeg (a.map f) (b.map f) := by
  obtain ⟨s, t, rfl⟩ := h
  exact ⟨s.map f, t.map f, by simp⟩

theorem dropWhile_subSeg (p : Char → Bool) (l : List Char) :
    ∃ s, l = s ++ l.dropWhile p := by
  induction l with
  | nil => exact ⟨[], rfl⟩
  | cons c rest ih =>
    by_cases h : p c
    · obtain ⟨s, hs⟩ := ih
      exact ⟨c :: s, by simp [List.dropWhile, h, ← hs]⟩
    · exact ⟨[], by simp [List.dropWhile, h]⟩

theorem dropLeading_subSeg (l : List Char) : SubSeg (dropLeading l) l := by
  obtain ⟨s, hs⟩ := dropWhile_subSeg isPySpace l
  exact ⟨s, [], by simpa using hs⟩

theorem dropTrailing_subSeg (l : List Char) : SubSeg (dropTrailing l) l := by
  obtain ⟨s, hs⟩ := dropWhile_subSeg isPySpace l.reverse
  refine ⟨[], s.reverse, ?_⟩
  have := congrArg List.reverse hs
  simpa [dropTrailing] using this

theorem pyStripL_subSeg (l : List Char) : SubSeg (pyStripL l) l :=
  SubSeg.trans (dropTrailing_subSeg (dropLeading l)) (dropLeading_subSeg l)

theorem strContains_of_subSeg {hay : String} {n m : List Char}
    (h1 : SubSeg n m) (h2 : listContains m hay.data = true) :
    listContains n hay.data = true :=
  (listContains_iff n hay.data).mpr
    (SubSeg.trans h1 ((listContains_iff m hay.data).mp h2))

/-- A title whose stripped lower-cased form contains `"(sorbisch)"` makes
`is_sorbian_episode` fire (via the keyword `"sorbisch"`). -/
theorem sorbian_of_tagged (e : Entry)
    (h : strContains (pyLower (pyStrip (titleOf e))) "(sorbisch)" = true) :
    is_sorbian_episode e = true := by
  have hsub1 : SubSeg "sorbisch".data "(sorbisch)".data :=
    ⟨['('], [')'], by decide⟩
  have hstrip : SubSeg (pyLower (pyStrip (titleOf e))).data (pyLower (titleOf e)).data := by
    have := SubSeg.mapChar lowerChar (pyStripL_subSeg (titleOf e).data)
    simpa [pyLower, pyStrip] using this
  have hmem : SubSeg "(sorbisch)".data (pyLower (pyStrip (titleOf e))).data :=
    (listContains_iff _ _).mp h
  have : SubSeg "sorbisch".data (pyLower (titleOf e)).data :=
    SubSeg.trans (SubSeg.trans hsub1 hmem) hstrip
  have hcont : strContains (pyLower (titleOf e)) "sorbisch" = true :=
    (listContains_iff _ _).mpr this
  unfold is_sorbian_episode
  simp only [List.any_eq_true]
  exact ⟨"sorbisch", by simp [sorbianKeywords], by simp [hcont]⟩

/-- Scanning a page is cut short by a too-old record: the scan result map
equals the result of scanning only the records before it. -/
theorem scanGo_take (cutoffTs : Int) (page : List Entry) :
    ∀ (i : Nat) (s : ScanState) (e : Entry),
      page[i]? = some e → tsOf e < cutoffTs →
      (scanGo cutoffTs page s).map = (scanGo cutoffTs (page.take i) s).map := by
  induction page with
  | nil => intro i s e h _; simp at h
  | cons a rest ih =>
    intro i s e hget hts
    cases i with
    | zero =>
      simp only [List.getElem?_cons_zero, Option.some.injEq] at hget
      subst hget
      rw [List.take_zero]
      simp only [scanGo]
      split_ifs <;> rfl
    | succ i' =>
      simp only [List.getElem?_cons_succ] at hget
      rw [List.take_succ_cons]
      simp only [scanGo]
      split_ifs <;> first | rfl | exact ih i' _ e hget hts

/-- Under the conditions of `scanGo_take`, the scan ends with the cutoff
flag set or with a full map, so the paging loop will stop. -/
theorem scanGo_cutoff_or_full (cutoffTs : Int) (page : List Entry) :
    ∀ (i : Nat) (s : ScanState) (e : Entry),
      page[i]? = some e → tsOf e < cutoffTs → i + s.checked < maxChecks →
      (scanGo cutoffTs page s).cutoffReached = true ∨
        maxResults ≤ (scanGo cutoffTs page s).map.length := by
  induction page with
  | nil => intro i s e h _ _; simp at h
  | cons a rest ih =>
    intro i s e hget hts hcheck
    cases i with
    | zero =>
      simp only [List.getElem?_cons_zero, Option.some.injEq] at hget
      subst hget
      simp only [scanGo]
      split_ifs with h1 <;> first | omega | exact Or.inl rfl
    | succ i' =>
      simp only [List.getElem?_cons_succ] at hget
      simp only [scanGo]
      split_ifs <;>
        first
        | omega
        | exact Or.inl rfl
        | exact Or.inr (by assumption)
        | exact ih i' _ e hget hts
            (by show i' + (s.checked + 1) < maxChecks; omega)

/-- If a record at position `i < maxChecks` of a page is older than the
cutoff, the paging loop stops after this page: later pages are never
consulted. -/
theorem paging_stops (cutoffTs : Int) (m : SMap) (page : List Entry)
    (i : Nat) (e : Entry) (rest : List (List Entry))
    (hget : page[i]? = some e) (hts : tsOf e < cutoffTs) (hi : i < maxChecks) :
    reconcilePages cutoffTs m (page :: rest) = reconcilePages cutoffTs m [page] := by
  have hstop := scanGo_cutoff_or_full cutoffTs page i
    { map := m, checked := 0, cutoffReached := false } e hget hts
    (by show i + 0 < maxChecks; omega)
  have hpe : page.isEmpty = false := by
    cases page
    · simp at hget
    · rfl
  simp only [reconcilePages]
  by_cases hm : maxResults ≤ m.length
  · rw [if_pos hm, if_pos hm]
  · rw [if_neg hm, if_neg hm]
    simp only [hpe, Bool.false_eq_true, if_false]
    generalize scanGo cutoffTs page { map := m, checked := 0, cutoffReached := false } = s at hstop ⊢
    rcases hstop with hcut | hfull
    · simp [hcut]
    · simp [hfull]

/-! ## Claim theorems -/

/-- C7: the relevance score of `sorbian_score` is the sum of exactly three
independent weights (+3 for a strong keyword in the lower-cased title or
description, +2 for a Sorbian diacritic in title+description, +1 for
`"sorbisch"` in a URL field); hence it is a non-negative integer, at most
6, and monotone in each of the three signals. -/
theorem c7_score_shape_bounds_monotone (e : Entry) :
    sorbian_score e =
      (if hasStrongKeyword e then (3 : Int) else 0) +
      (if hasDiacritic e then (2 : Int) else 0) +
      (if hasUrlHint e then (1 : Int) else 0) ∧
    0 ≤ sorbian_score e ∧ sorbian_score e ≤ 6 ∧
    ∀ e' : Entry,
      (hasStrongKeyword e = true → hasStrongKeyword e' = true) →
      (hasDiacritic e = true → hasDiacritic e' = true) →
      (hasUrlHint e = true → hasUrlHint e' = true) →
      sorbian_score e ≤ sorbian_score e' := by
  refine ⟨?_, ?_, ?_, ?_⟩
  · simp only [sorbian_score]
    cases h1 : hasStrongKeyword e <;> cases h2 : hasDiacritic e <;>
      cases h3 : hasUrlHint e <;> simp
  · simp only [sorbian_score]
    cases h1 : hasStrongKeyword e <;> cases h2 : hasDiacritic e <;>
      cases h3 : hasUrlHint e <;> simp
  · simp only [sorbian_score]
    cases h1 : hasStrongKeyword e <;> cases h2 : hasDiacritic e <;>
      cases h3 : hasUrlHint e <;> simp
  · intro e' hS hD hU
    simp only [sorbian_score]
    cases h1 : hasStrongKeyword e <;> cases h2 : hasDiacritic e <;>
      cases h3 : hasUrlHint e <;> cases h4 : hasStrongKeyword e' <;>
      cases h5 : hasDiacritic e' <;> cases h6 : hasUrlHint e' <;>
      simp_all

/-- C7 witness at concrete records. -/
theorem c7_witness : sorbian_score recLow ≤ sorbian_score recHigh :=
  (c7_score_shape_bounds_monotone recLow).2.2.2 recHigh
    (fun _ => by decide) (fun h => by exact absurd h (by decide))
    (fun h => by exact absurd h (by decide))

/-- C6: `_pick_best` selects an `.mp4` reference whenever one occurs among
the candidate stream references (in particular when both an `.m3u8` and an
`.mp4` reference are present), and when only a single format is present it
selects the first candidate in document order. -/
theorem c6_pick_best_format (cands : List String) :
    ((∃ u ∈ cands, strEndsWith (pyLower u) ".mp4" = true) →
      ∃ u, pick_best cands = some u ∧ u ∈ cands ∧
        strEndsWith (pyLower u) ".mp4" = true) ∧
    (∀ c cs, cands = c :: cs →
      ((∀ u ∈ cands, strEndsWith (pyLower u) ".mp4" = true) ∨
       (∀ u ∈ cands, strEndsWith (pyLower u) ".mp4" = false)) →
      pick_best cands = some c) := by
  constructor
  · rintro ⟨u, hu, hp⟩
    cases cands with
    | nil => simp at hu
    | cons c cs =>
      have hsome : ((c :: cs).find? (fun v => strEndsWith (pyLower v) ".mp4")).isSome := by
        rw [List.find?_isSome]
        exact ⟨u, hu, hp⟩
      obtain ⟨v, hv⟩ := Option.isSome_iff_exists.mp hsome
      have hpv := List.find?_some hv
      refine ⟨v, ?_, List.mem_of_find?_eq_some hv, by simpa using hpv⟩
      simp [pick_best, hv]
  · rintro c cs rfl hcase
    rcases hcase with hall | hnone
    · have hfind : (c :: cs).find? (fun v => strEndsWith (pyLower v) ".mp4") = some c :=
        List.find?_cons_of_pos _ (hall c (List.mem_cons_self c cs))
      simp [pick_best, hfind]
    · have hfind : (c :: cs).find? (fun v => strEndsWith (pyLower v) ".mp4") = none := by
        rw [List.find?_eq_none]
        intro x hx
        simp [hnone x hx]
      simp [pick_best, hfind]

/-- C6 witness: a page with one `.m3u8` and one `.mp4` reference yields the
`.mp4`; a page with only `.m3u8` references yields the first one. -/
theorem c6_witness :
    (∃ u, pick_best ["https://a/x.m3u8", "https://a/y.mp4"] = some u ∧
      u ∈ ["https://a/x.m3u8", "https://a/y.mp4"] ∧
      strEndsWith (pyLower u) ".mp4" = true) ∧
    pick_best ["https://a/x.m3u8", "https://a/z.m3u8"] = some "https://a/x.m3u8" := by
  constructor
  · exact (c6_pick_best_format _).1 ⟨"https://a/y.mp4", by simp, by decide⟩
  · exact (c6_pick_best_format _).2 _ _ rfl (Or.inr (by decide))

/-- C9: `fetch_results` yields an empty result (never an exception) on
every transport failure and on every body that does not parse as JSON; a
non-empty result arises only from a successful response with a parsed
body. -/
theorem c9_fetch_results_total (r : ApiResponse) (v : JValue) :
    fetch_results ApiResponse.transportFailure = Except.ok (JValue.arr []) ∧
    fetch_results (ApiResponse.success none) = Except.ok (JValue.arr []) ∧
    (fetch_results r = Except.ok v → v ≠ JValue.arr [] →
      ∃ j, r = ApiResponse.success (some j)) := by
  refine ⟨rfl, rfl, fun hok hne => ?_⟩
  cases r with
  | transportFailure =>
    simp only [fetch_results] at hok
    injection hok with h
    exact absurd h.symm hne
  | success body =>
    cases body with
    | none =>
      simp only [fetch_results] at hok
      injection hok with h
      exact absurd h.symm hne
    | some j => exact ⟨j, rfl⟩

/-- C2: after merging any record sequence through the insert-or-replace
rule (replace exactly when the newcomer's score is strictly higher), each
key of the working map holds the first-seen maximum-scoring record among
all processed records with that key. -/
theorem c2_first_seen_max_scoring (entries : List Entry) (k : DKey) :
    (lookupMap (mergeAll entries) k = none ↔
      entries.filter (fun e => decide (dedupKey e = k)) = []) ∧
    ∀ ep, lookupMap (mergeAll entries) k = some ep →
      ∃ i, (entries.filter (fun e => decide (dedupKey e = k)))[i]? = some ep ∧
        (∀ e' ∈ entries.filter (fun e => decide (dedupKey e = k)),
          sorbian_score e' ≤ sorbian_score ep) ∧
        ∀ (j : Nat) (e' : Entry), j < i →
          (entries.filter (fun e => decide (dedupKey e = k)))[j]? = some e' →
          sorbian_score e' < sorbian_score ep := by
  induction entries using List.reverseRecOn with
  | nil => simp [mergeAll, lookupMap]
  | append_singleton l x ih =>
    have hfold : mergeAll (l ++ [x]) = add_entry_to_map (mergeAll l) x := by
      simp [mergeAll]
    by_cases hx : dedupKey x = k
    · have hgroup : (l ++ [x]).filter (fun e => decide (dedupKey e = k)) =
          l.filter (fun e => decide (dedupKey e = k)) ++ [x] := by
        simp [List.filter_append, hx]
      rw [hfold, hgroup]
      cases hL : lookupMap (mergeAll l) k with
      | none =>
        have hGnil : l.filter (fun e => decide (dedupKey e = k)) = [] := ih.1.mp hL
        rw [hGnil]
        have hrep : shouldReplace (mergeAll l) x = true := by
          simp [shouldReplace, hx, hL]
        have hmap : add_entry_to_map (mergeAll l) x =
            mapSet (mergeAll l) (dedupKey x) x := by
          simp [add_entry_to_map, hrep]
        rw [hmap, hx]
        constructor
        · simp [lookup_mapSet_self]
        · intro ep hep
          rw [lookup_mapSet_self] at hep
          injection hep with hep
          subst hep
          refine ⟨0, by simp, ?_, ?_⟩
          · intro e' he'
            simp at he'
            subst he'
            exact le_refl _
          · intro j e' hj _
            exact absurd hj (Nat.not_lt_zero j)
      | some ex =>
        obtain ⟨i, hi, hmax, hstrict⟩ := ih.2 ex hL
        have hilen : i < (l.filter (fun e => decide (dedupKey e = k))).length := by
          obtain ⟨hlt, -⟩ := List.getElem?_eq_some.mp hi
          exact hlt
        by_cases hs : sorbian_score x > sorbian_score ex
        · have hrep : shouldReplace (mergeAll l) x = true := by
            simp [shouldReplace, hx, hL, hs]
          have hmap : add_entry_to_map (mergeAll l) x =
              mapSet (mergeAll l) (dedupKey x) x := by
            simp [add_entry_to_map, hrep]
          rw [hmap, hx]
          constructor
          · simp [lookup_mapSet_self]
          · intro ep hep
            rw [lookup_mapSet_self] at hep
            injection hep with hep
            subst hep
            refine ⟨(l.filter (fun e => decide (dedupKey e = k))).length,
              List.getElem?_concat_length _ _, ?_, ?_⟩
            · intro e' he'
              rcases List.mem_append.mp he' with hmem | hmem
              · exact le_of_lt (lt_of_le_of_lt (hmax e' hmem) hs)
              · simp at hmem
                subst hmem
                exact le_refl _
            · intro j e' hj hje
              rw [List.getElem?_append_left hj] at hje
              exact lt_of_le_of_lt (hmax e' (List.getElem?_mem hje)) hs
        · have hrep : shouldReplace (mergeAll l) x = false := by
            simp [shouldReplace, hx, hL, hs]
          have hmap : add_entry_to_map (mergeAll l) x = mergeAll l := by
            simp [add_entry_to_map, hrep]
          rw [hmap]
          constructor
          · rw [hL]
            simp
          · intro ep hep
            rw [hL] at hep
            injection hep with hep
            subst hep
            refine ⟨i, ?_, ?_, ?_⟩
            · rw [List.getElem?_append_left hilen]
              exact hi
            · intro e' he'
              rcases List.mem_append.mp he' with hmem | hmem
              · exact hmax e' hmem
              · simp at hmem
                subst hmem
                omega
            · intro j e' hj hje
              rw [List.getElem?_append_left (lt_trans hj hilen)] at hje
              exact hstrict j e' hj hje
    · have hgroup : (l ++ [x]).filter (fun e => decide (dedupKey e = k)) =
          l.filter (fun e => decide (dedupKey e = k)) := by
        simp [List.filter_append, hx]
      rw [hfold, hgroup, lookup_add_entry_ne (mergeAll l) x k hx]
      exact ih

/-- C2 witness: of two same-key records the later, strictly
higher-scoring one is held, and it dominates the group. -/
theorem c2_witness :
    ∃ i, ([recLow, recHigh].filter
        (fun e => decide (dedupKey e = dedupKey recLow)))[i]? = some recHigh ∧
      (∀ e' ∈ [recLow, recHigh].filter
          (fun e => decide (dedupKey e = dedupKey recLow)),
        sorbian_score e' ≤ sorbian_score recHigh) ∧
      ∀ (j : Nat) (e' : Entry), j < i →
        ([recLow, recHigh].filter
          (fun e => decide (dedupKey e = dedupKey recLow)))[j]? = some e' →
        sorbian_score e' < sorbian_score recHigh :=
  (c2_first_seen_max_scoring [recLow, recHigh] (dedupKey recLow)).2 recHigh rfl

/-- C4: the first record on a page whose timestamp is strictly before the
cutoff stops the page scan — the resulting map equals that of scanning
only the records before it, so neither that record nor any later one is
added — and no further pages are fetched in this pass. -/
theorem c4_cutoff_stops_scan_and_paging (cutoffTs : Int) (m : SMap)
    (page : List Entry) (i : Nat) (e : Entry) (rest : List (List Entry))
    (hget : page[i]? = some e) (hts : tsOf e < cutoffTs) (hi : i < maxChecks) :
    (scanGo cutoffTs page { map := m, checked := 0, cutoffReached := false }).map =
      (scanGo cutoffTs (page.take i)
        { map := m, checked := 0, cutoffReached := false }).map ∧
    reconcilePages cutoffTs m (page :: rest) = reconcilePages cutoffTs m [page] :=
  ⟨scanGo_take cutoffTs page i _ e hget hts,
   paging_stops cutoffTs m page i e rest hget hts hi⟩

/-- C4 witness: a page with an old record at position 1 scans like its
one-record prefix and stops paging. -/
theorem c4_witness :
    ((scanGo 10 [recFresh, recStale, recLater]
        { map := [], checked := 0, cutoffReached := false }).map =
      (scanGo 10 ([recFresh, recStale, recLater].take 1)
        { map := [], checked := 0, cutoffReached := false }).map) ∧
    reconcilePages 10 [] ([recFresh, recStale, recLater] :: [[recLow]]) =
      reconcilePages 10 [] [[recFresh, recStale, recLater]] :=
  c4_cutoff_stops_scan_and_paging 10 [] [recFresh, recStale, recLater] 1
    recStale [[recLow]] rfl (by decide) (by decide)

/-- C10: a record whose timestamp is absent or zero triggers the cutoff
branch of the page scan exactly as an over-age record does (the epoch is
before `now - max_age`): the scan stops there, no further pages are
fetched — while `_add_entry_to_map` admits epoch records, keyed with an
empty date component. -/
theorem c10_epoch_timestamp_cutoff (cutoffTs : Int) (m m2 : SMap)
    (page : List Entry) (i : Nat) (e e2 : Entry) (rest : List (List Entry))
    (hcut : 0 < cutoffTs) (hget : page[i]? = some e) (h0 : tsOf e = 0)
    (hi : i < maxChecks) :
    ((scanGo cutoffTs page { map := m, checked := 0, cutoffReached := false }).map =
       (scanGo cutoffTs (page.take i)
         { map := m, checked := 0, cutoffReached := false }).map ∧
     reconcilePages cutoffTs m (page :: rest) = reconcilePages cutoffTs m [page]) ∧
    (tsOf e2 = 0 → lookupMap m2 (dedupKey e2) = none →
      lookupMap (add_entry_to_map m2 e2) (dedupKey e2) = some e2 ∧
      (dedupKey e2).2.2 = "") := by
  have hts : tsOf e < cutoffTs := by omega
  refine ⟨⟨scanGo_take cutoffTs page i _ e hget hts,
    paging_stops cutoffTs m page i e rest hget hts hi⟩, fun h02 hnone => ⟨?_, ?_⟩⟩
  · simp only [add_entry_to_map, shouldReplace, hnone, if_true]
    exact lookup_mapSet_self m2 (dedupKey e2) e2
  · simp [dedupKey, h02]

/-- C10 witness: an epoch-timestamped record at the head of a page stops
the scan and paging, and the same record is admitted by the
override/manual merge path. -/
theorem c10_witness :
    (((scanGo 10 [recEpoch, recFresh]
         { map := [], checked := 0, cutoffReached := false }).map =
       (scanGo 10 ([recEpoch, recFresh].take 0)
         { map := [], checked := 0, cutoffReached := false }).map) ∧
      reconcilePages 10 [] ([recEpoch, recFresh] :: [[recLow]]) =
        reconcilePages 10 [] [[recEpoch, recFresh]]) ∧
    (lookupMap (add_entry_to_map [] recEpoch) (dedupKey recEpoch) = some recEpoch ∧
      (dedupKey recEpoch).2.2 = "") := by
  have h := c10_epoch_timestamp_cutoff 10 [] [] [recEpoch, recFresh] 0 recEpoch
    recEpoch [[recLow]] (by decide) rfl (by decide) (by decide)
  exact ⟨h.1, h.2 (by decide) rfl⟩

/-- C5: a scanned record whose title matches the Angelfreuden pattern is
excluded from the working map when the title lacks the `"(sorbisch)"`
tag, and admitted when it carries the tag (given it is within the age
cutoff). -/
theorem c5_angelfreuden_special_case (m : SMap) (e : Entry) (cutoffTs : Int)
    (hts : cutoffTs ≤ tsOf e)
    (hg : strContains (pyLower (pyStrip (titleOf e))) "gestörte angelfreuden" = true ∨
          strContains (pyLower (pyStrip (titleOf e))) "gestoerte angelfreuden" = true) :
    (strContains (pyLower (pyStrip (titleOf e))) "(sorbisch)" = false →
      (scanGo cutoffTs [e] { map := m, checked := 0, cutoffReached := false }).map = m) ∧
    (strContains (pyLower (pyStrip (titleOf e))) "(sorbisch)" = true →
      lookupMap m (dedupKey e) = none →
      lookupMap (scanGo cutoffTs [e]
          { map := m, checked := 0, cutoffReached := false }).map
        (dedupKey e) = some e) := by
  have hnlt : ¬ tsOf e < cutoffTs := by omega
  constructor
  · intro hnos
    simp only [scanGo]
    split_ifs with h1 h2 h3 h4 h5 <;>
      first
      | rfl
      | exact absurd (by rcases hg with hg | hg <;> simp [hg, hnos]) h3
  · intro hsorb hnone
    have hsor : is_sorbian_episode e = true := sorbian_of_tagged e hsorb
    simp only [scanGo]
    split_ifs with h1 h2 h3 h4
    · exact absurd h1 (by decide)
    · exact absurd h2 (by simp [hsorb])
    · exact lookup_mapSet_self m (dedupKey e) e
    · exact lookup_mapSet_self m (dedupKey e) e
    · exact absurd (show shouldReplace m e = true by
        simp [shouldReplace, hnone]) h3

/-- C5 witness: the untagged Angelfreuden record is excluded, the tagged
variant is admitted. -/
theorem c5_witness :
    (scanGo 0 [recAngel] { map := [], checked := 0, cutoffReached := false }).map = [] ∧
    lookupMap (scanGo 0 [recAngelS]
        { map := [], checked := 0, cutoffReached := false }).map
      (dedupKey recAngelS) = some recAngelS := by
  constructor
  · exact (c5_angelfreuden_special_case [] recAngel 0 (by decide)
      (Or.inl (by decide))).1 (by decide)
  · exact (c5_angelfreuden_special_case [] recAngelS 0 (by decide)
      (Or.inl (by decide))).2 (by decide) rfl

/-- C8: the paging loop requests a further index page exactly when the
just-scanned page yielded at least `max_checks` scanned records, the age
cutoff was not reached on it, and the working map has not reached
`max_results`; an index page returning zero records terminates paging
immediately. -/
theorem c8_paging_decision (cutoffTs : Int) (m : SMap) (p : List Entry)
    (rest : List (List Entry)) :
    reconcilePages cutoffTs m ([] :: rest) = m ∧
    (p ≠ [] →
      reconcilePages cutoffTs m (p :: rest) =
        if maxResults ≤ m.length then m
        else
          let s := scanGo cutoffTs p { map := m, checked := 0, cutoffReached := false }
          if maxChecks ≤ s.checked ∧ s.cutoffReached = false ∧ s.map.length < maxResults
          then reconcilePages cutoffTs s.map rest
          else s.map) := by
  constructor
  · simp [reconcilePages]
  · intro hp
    simp only [reconcilePages]
    by_cases hm : maxResults ≤ m.length
    · rw [if_pos hm, if_pos hm]
    · rw [if_neg hm, if_neg hm]
      have hpe : p.isEmpty = false := by
        cases p
        · exact absurd rfl hp
        · rfl
      simp only [hpe, Bool.false_eq_true, if_false]
      generalize scanGo cutoffTs p { map := m, checked := 0, cutoffReached := false } = s
      obtain ⟨mp, ck, cr⟩ := s
      cases cr
      · simp only [Bool.false_or, decide_eq_true_eq, eq_self_iff_true, true_and]
        split_ifs <;> first | rfl | omega
      · simp

/-- C8 witness: an empty page stops paging with the map unchanged, and a
non-empty page follows the three-condition continuation rule. -/
theorem c8_witness :
    reconcilePages 0 [] ([] :: [[recLater]]) = [] ∧
    reconcilePages 0 [] ([recFresh] :: [[recLater]]) =
      (if maxResults ≤ ([] : SMap).length then ([] : SMap)
       else
         let s := scanGo 0 [recFresh] { map := [], checked := 0, cutoffReached := false }
         if maxChecks ≤ s.checked ∧ s.cutoffReached = false ∧ s.map.length < maxResults
         then reconcilePages 0 s.map [[recLater]]
         else s.map) :=
  ⟨(c8_paging_decision 0 [] [recFresh] [[recLater]]).1,
   (c8_paging_decision 0 [] [recFresh] [[recLater]]).2 (by simp)⟩

/-- C1 counterexample: two records carrying the same provider identifier
(the same `Y3Jp…` CRID as last path segment of `website_url`) but with
different titles BOTH survive the index-scan merge — the dedup key never
consults `extract_base64_id`. -/
theorem c1_counterexample :
    extract_base64_id (recA.url_website.getD "") = some "Y3JpZDovL3JiYl90ZXN0" ∧
    extract_base64_id (recB.url_website.getD "") = some "Y3JpZDovL3JiYl90ZXN0" ∧
    (scanGo 0 [recA, recB]
      { map := [], checked := 0, cutoffReached := false }).map.length = 2 :=
  ⟨rfl, rfl, rfl⟩

/-- C1 amended: the dedup key is always the normalized
title/description/date triple; merging two records collapses them to one
entry exactly when their triples coincide, irrespective of any provider
identifier in their URLs. -/
theorem c1_amended_dedup_by_triple (a b : Entry) :
    (mergeAll [a, b]).length = if dedupKey a = dedupKey b then 1 else 2 := by
  show (add_entry_to_map (add_entry_to_map [] a) b).length = _
  have h1 : add_entry_to_map [] a = [(dedupKey a, a)] := by
    simp [add_entry_to_map, shouldReplace, lookupMap, mapSet]
  rw [h1]
  by_cases hk : dedupKey a = dedupKey b
  · rw [if_pos hk, hk]
    have hlook : lookupMap [(dedupKey b, a)] (dedupKey b) = some a := by
      simp [lookupMap]
    by_cases hs : sorbian_score b > sorbian_score a
    · simp [add_entry_to_map, shouldReplace, hlook, hs, mapSet]
    · simp [add_entry_to_map, shouldReplace, hlook, hs]
  · rw [if_neg hk]
    have hlook : lookupMap [(dedupKey a, a)] (dedupKey b) = none := by
      simp [lookupMap, hk]
    simp [add_entry_to_map, shouldReplace, hlook, mapSet, hk]

/-- C3 counterexample: `build_rss` receives the working map's values in
insertion order, not sorted; with an older record inserted first, the
feed item sequence is not in descending `published_at` order. -/
theorem c3_counterexample :
    valuesOf (mergeAll [recOldT, recNewT]) = [recOldT, recNewT] ∧
    (build_rss (valuesOf (mergeAll [recOldT, recNewT]))).map
      RssItem.pubDateTs = [100, 200] ∧
    ¬ List.Pairwise (fun a b : RssItem => b.pubDateTs ≤ a.pubDateTs)
      (build_rss (valuesOf (mergeAll [recOldT, recNewT]))) := by
  refine ⟨rfl, rfl, ?_⟩
  decide

/-- C3 amended: the display table sequence is the working map's values
sorted by `published_at` descending (absent timestamps default to the
epoch 0 and so sort last among nonnegative timestamps), while the feed
serialization receives its input sequence unsorted, in the given order. -/
theorem c3_amended_display_sorted_feed_unsorted (l : List Entry) :
    List.Pairwise (fun a b => tsOf b ≤ tsOf a) (displaySorted l) ∧
    (displaySorted l).Perm l ∧
    (build_rss l).map RssItem.pubDateTs = l.map tsOf := by
  refine ⟨?_, ?_, ?_⟩
  · have h : (l.mergeSort (fun a b => decide (tsOf b ≤ tsOf a))).Pairwise
        (fun a b => decide (tsOf b ≤ tsOf a) = true) :=
      List.sorted_mergeSort
        (fun a b c h1 h2 => by
          simp only [decide_eq_true_eq] at h1 h2 ⊢
          omega)
        (fun a b => by
          simp only [Bool.or_eq_true, decide_eq_true_eq]
          omega)
        l
    simp only [displaySorted]
    exact h.imp (fun hab => by simpa using hab)
  · simp only [displaySorted]
    exact List.mergeSort_perm l _
  · simp only [build_rss, List.map_map]
    rfl

/-- C9 witness: a successful, well-formed response produces its result
list, and the only-from-success direction applies to it. -/
theorem c9_witness :
    fetch_results (ApiResponse.success (some (JValue.obj [("result",
      JValue.obj [("results", JValue.arr [JValue.num 1])])]))) =
      Except.ok (JValue.arr [JValue.num 1]) ∧
    ∃ j, ApiResponse.success (some (JValue.obj [("result",
      JValue.obj [("results", JValue.arr [JValue.num 1])])])) =
      ApiResponse.success (some j) := by
  constructor
  · rfl
  · exact (c9_fetch_results_total _ (JValue.arr [JValue.num 1])).2.2 rfl
      (fun h => by injection h with h'; exact List.cons_ne_nil _ _ h')

end Peskowcik
